import Mathlib

/-
  Verification development for the nestac library (path-string addressing
  into JSON-like and TOML-like tree documents).

  The tree value type is a closed sum over the variants the library
  manipulates (serde_json::Value / toml::Value collapse to the same shape:
  scalars, arrays, ordered maps).  Rust `Option<&Value>` results become
  `Option Value`; in-place mutation becomes explicit document rebuilding;
  a Rust panic (`unwrap` on `None`, `as_object_mut().unwrap()` on a
  non-object, out-of-range `Vec` indexing) is modelled as the outer `none`
  of an `Option` result, distinguished from a normal `none` return which
  is modelled as `some (none, doc)`.
-/

namespace Nestac

/-- Tree value: serde_json::Value / toml::Value collapsed to the shape the
library core manipulates (Null/Bool/Number/String scalars, Array, ordered
Object/Table). -/
inductive Value where
  | null : Value
  | bool : Bool → Value
  | num : Int → Value
  | str : String → Value
  | arr : List Value → Value
  | obj : List (String × Value) → Value
deriving Repr

/-- A TOML document root: `toml::map::Map<String, Value>` (kept in order). -/
abbrev Table := List (String × Value)

/-- Map lookup (`Map::get`): first entry whose key matches. -/
def alookup (k : String) : List (String × Value) → Option Value
  | [] => none
  | kc :: rest => if kc.1 == k then some kc.2 else alookup k rest

/-- Map insert (`Map::insert`): replace the value at an existing key in
place, else append the new entry. -/
def setA (k : String) (v : Value) : List (String × Value) → List (String × Value)
  | [] => [(k, v)]
  | kc :: rest => if kc.1 == k then (k, v) :: rest else kc :: setA k v rest

/-- Rust `str::split` on a non-empty separator, over character lists.
The `Nat` argument skips characters still owed from a previous separator
match (a matched separator `c :: sep2` consumes `c` now and owes
`sep2.length` characters). An empty separator never matches (callers only
pass non-empty separators). -/
def splitDrop (sep : List Char) : Nat → List Char → List (List Char)
  | Nat.succ _, [] => [[]]
  | Nat.succ k, _ :: rest => splitDrop sep k rest
  | 0, [] => [[]]
  | 0, c :: rest =>
      if sep ≠ [] ∧ sep.isPrefixOf (c :: rest) then
        [] :: splitDrop sep (sep.length - 1) rest
      else
        match splitDrop sep 0 rest with
        | [] => [[c]]
        | h :: t => (c :: h) :: t

/-- `path.split(separator)`: the token list of a path. -/
def splitTokens (path sep : String) : List String :=
  (splitDrop sep.data 0 path.data).map fun cs => ⟨cs⟩

/-- Decimal value of a digit list (the mathematical value; the usize bound
and the ASCII-digit requirement of `str::parse::<usize>` live in
`parseUsize` below). -/
def natOfDigits (ds : List Char) : Nat :=
  ds.foldl (fun n c => n * 10 + (c.toNat - '0'.toNat)) 0

/-- The non-ASCII ranges of the Unicode decimal-digit category `Nd`, which
is what the regex crate's default `\d` matches.  The theorems below rely
only on three facts about this table: the ASCII digits satisfy `isNd`, the
brackets `[` and `]` do not, and the concrete character `٤` (U+0664,
ARABIC-INDIC DIGIT FOUR, used in counterexamples) does; every
universally-quantified statement is conditioned (on ASCII digit runs, or
on tokens whose first character is not `[`, which the anchored regex can
never match) so that its truth for the program does not depend on the
exact extent of the table. -/
def ndRanges : List (Nat × Nat) :=
  [(0x660, 0x669), (0x6F0, 0x6F9), (0x7C0, 0x7C9), (0x966, 0x96F),
   (0x9E6, 0x9EF), (0xA66, 0xA6F), (0xAE6, 0xAEF), (0xB66, 0xB6F),
   (0xBE6, 0xBEF), (0xC66, 0xC6F), (0xCE6, 0xCEF), (0xD66, 0xD6F),
   (0xDE6, 0xDEF), (0xE50, 0xE59), (0xED0, 0xED9), (0xF20, 0xF29),
   (0x1040, 0x1049), (0x1090, 0x1099), (0x17E0, 0x17E9), (0x1810, 0x1819),
   (0x1946, 0x194F), (0x19D0, 0x19D9), (0x1A80, 0x1A89), (0x1A90, 0x1A99),
   (0x1B50, 0x1B59), (0x1BB0, 0x1BB9), (0x1C40, 0x1C49), (0x1C50, 0x1C59),
   (0xA620, 0xA629), (0xA8D0, 0xA8D9), (0xA900, 0xA909), (0xA9D0, 0xA9D9),
   (0xA9F0, 0xA9F9), (0xAA50, 0xAA59), (0xABF0, 0xABF9), (0xFF10, 0xFF19),
   (0x104A0, 0x104A9), (0x10D30, 0x10D39), (0x11066, 0x1106F),
   (0x110F0, 0x110F9), (0x11136, 0x1113F), (0x111D0, 0x111D9),
   (0x112F0, 0x112F9), (0x11450, 0x11459), (0x114D0, 0x114D9),
   (0x11650, 0x11659), (0x116C0, 0x116C9), (0x11730, 0x11739),
   (0x118E0, 0x118E9), (0x11950, 0x11959), (0x11C50, 0x11C59),
   (0x11D50, 0x11D59), (0x11DA0, 0x11DA9), (0x16A60, 0x16A69),
   (0x16B50, 0x16B59), (0x1D7CE, 0x1D7FF), (0x1E140, 0x1E149),
   (0x1E2F0, 0x1E2F9), (0x1E950, 0x1E959), (0x1FBF0, 0x1FBF9)]

/-- The regex crate's `\d`, which by default is the Unicode `\p{Nd}`
category: ASCII digits together with the non-ASCII decimal digits. -/
def isNd (c : Char) : Bool :=
  c.isDigit || ndRanges.any fun r => decide (r.1 ≤ c.toNat ∧ c.toNat ≤ r.2)

/-- The capture group of the anchored regex `^\[(\d+)\]$`: `some ds` iff
the token is exactly `[` then one or more Unicode decimal digits `ds` then
`]`. -/
def regexCapture (t : String) : Option (List Char) :=
  match t.data with
  | c :: rest =>
      if c = '[' then
        let p := rest.span isNd
        if p.1 ≠ [] ∧ p.2 = [']'] then some p.1 else none
      else none
  | [] => none

/-- `str::parse::<usize>` on the captured digit run: succeeds exactly on
ASCII digit runs whose value fits the 64-bit `usize`; any other run
(non-ASCII Unicode digits, or overflow) is an `Err`, whose `.unwrap()` in
the readers and the TOML updater panics. -/
def parseUsize (ds : List Char) : Option Nat :=
  if (∀ c ∈ ds, c.isDigit = true) ∧ natOfDigits ds < 2 ^ 64 then
    some (natOfDigits ds)
  else none

/-- The per-token classification the loops compute,
`match re_vec_idx.captures(token) { Some(cap) =>
Some(cap[1].parse::<usize>().unwrap()), _ => None }`:
`some (some n)` is a successfully parsed index token, `some none` a plain
key (the regex did not match), and `none` the parse-unwrap panic (the
regex matched but the digits are not ASCII or overflow `usize`). -/
def classifyTok (t : String) : Option (Option Nat) :=
  match regexCapture t with
  | some ds =>
      match parseUsize ds with
      | some n => some (some n)
      | none => none
  | none => some none

/-- Successful index classification: the regex matches and the digits
parse.  `readStep`, `jsonUpdStep` and the theorem statements use this as
the fault-free navigation predicate. -/
def vecIdx (t : String) : Option Nat :=
  (regexCapture t).bind parseUsize

/-- `Value::get` with a string key: objects only. -/
def Value.getKey : Value → String → Option Value
  | .obj m, k => alookup k m
  | _, _ => none

/-- `Value::get` with an integer index: arrays only. -/
def Value.getIdx : Value → Nat → Option Value
  | .arr a, i => a[i]?
  | _, _ => none

/-- One fault-free navigation step (absent stays absent).  The loop body
the readers actually execute is `readStepP`, which agrees with this step
whenever the token classifies without a panic and is used in theorem
statements as the navigation condition. -/
def readStep (sel : Option Value) (token : String) : Option Value :=
  match sel with
  | some v =>
      match vecIdx token with
      | some i => v.getIdx i
      | none => v.getKey token
  | none => none

/-- One iteration of the read loops as written: the classification (and
its possible parse-unwrap panic, outer `none`) is computed for every token
before `sel_data` is examined, so a malformed index token faults even
after navigation already failed; a panic is absorbing. -/
def readStepP (sel : Option (Option Value)) (token : String) :
    Option (Option Value) :=
  match sel with
  | none => none
  | some s =>
      match classifyTok token with
      | none => none
      | some (some i) => some (s.bind fun v => Value.getIdx v i)
      | some none => some (s.bind fun v => Value.getKey v token)

/-- `json::read` (src/json/read.rs): tokenize, then run the loop body over
every token starting from the root value.  Result: `none` is a panic,
`some none` the absent value, `some (some v)` a present value. -/
def jsonRead (path : String) (data : Value) (separator : Option String) :
    Option (Option Value) :=
  (splitTokens path (separator.getD ".")).foldl readStepP (some (some data))

/-- `toml::read` (src/toml/read.rs): the first token is looked up directly
in the root table (never classified); if that lookup misses, the function
returns absent early, before the loop can classify (and fault on) any
later token; otherwise the remaining tokens run the same loop as the JSON
reader. -/
def tomlRead (path : String) (data : Table) (separator : Option String) :
    Option (Option Value) :=
  match splitTokens path (separator.getD ".") with
  | [] => some none
  | t0 :: rest =>
      match alookup t0 data with
      | none => some none
      | some v0 => rest.foldl readStepP (some (some v0))

/-- Loop body of `json_update` (src/json_update.rs) after tokenization,
with the current node explicit.  Last token: `as_object_mut().unwrap()
.insert(token, new_value)` — outer `none` when the node is not an object
(panic).  Non-last token: `get_mut(token)` (objects only); a missing or
non-object step makes the following iteration `unwrap` panic, hence outer
`none`.  An empty token list ends the loop and returns
`sel_data.cloned()` (unreachable from `jsonUpdate`). -/
def jsonUpdateGo : Value → List String → Value → Option (Option Value × Value)
  | v, [], _ => some (some v, v)
  | v, [t], newValue =>
      match v with
      | .obj m => some (alookup t m, .obj (setA t newValue m))
      | _ => none
  | v, t :: rest, newValue =>
      match v with
      | .obj m =>
          match alookup t m with
          | some c =>
              match jsonUpdateGo c rest newValue with
              | some (old, c2) => some (old, .obj (setA t c2 m))
              | none => none
          | none => none
      | _ => none

/-- `json_update` (src/json_update.rs). -/
def jsonUpdate (data : Value) (path : String) (separator : Option String)
    (newValue : Value) : Option (Option Value × Value) :=
  jsonUpdateGo data (splitTokens path (separator.getD ".")) newValue

/-- Main loop of `toml::update` (src/toml/update.rs) after the first
token.  Every token is first classified (`cap[1].parse::<usize>()
.unwrap()` panics on a regex-matching token whose digits are non-ASCII or
overflow, outer `none`).  Last token: an index token requires an array
(`as_array_mut().unwrap()`, panics otherwise) and in-range position
(`tmp[idx]` panics out of range), else a key token requires a table
(`as_table_mut().unwrap()`).  Non-last tokens navigate with the same
classification; any failed step panics on the following `unwrap`. -/
def tomlUpdateGo : Value → List String → Value → Option (Option Value × Value)
  | v, [], _ => some (none, v)
  | v, [t], newValue =>
      match classifyTok t with
      | none => none
      | some (some i) =>
          match v with
          | .arr a =>
              if h : i < a.length then some (some a[i], .arr (a.set i newValue))
              else none
          | _ => none
      | some none =>
          match v with
          | .obj m => some (alookup t m, .obj (setA t newValue m))
          | _ => none
  | v, t :: rest, newValue =>
      match classifyTok t with
      | none => none
      | some (some i) =>
          match v with
          | .arr a =>
              match a[i]? with
              | some c =>
                  match tomlUpdateGo c rest newValue with
                  | some (old, c2) => some (old, .arr (a.set i c2))
                  | none => none
              | none => none
          | _ => none
      | some none =>
          match v with
          | .obj m =>
              match alookup t m with
              | some c =>
                  match tomlUpdateGo c rest newValue with
                  | some (old, c2) => some (old, .obj (setA t c2 m))
                  | none => none
              | none => none
          | _ => none

/-- `toml::update` (src/toml/update.rs): a single token inserts into the
root table directly; otherwise the first token is fetched from the root
table with `get_mut` (a miss makes the loop panic since at least one
token remains), and the loop runs over the remaining tokens. -/
def tomlUpdate (data : Table) (path : String) (separator : Option String)
    (newValue : Value) : Option (Option Value × Table) :=
  match splitTokens path (separator.getD ".") with
  | [] => some (none, data)
  | [t0] => some (alookup t0 data, setA t0 newValue data)
  | t0 :: rest =>
      match alookup t0 data with
      | some v0 =>
          match tomlUpdateGo v0 rest newValue with
          | some (old, v2) => some (old, setA t0 v2 data)
          | none => none
      | none => none

/-- Join a pending path with a child key: `format!("{}.{}", p, key)`, or
the bare key when the popped entry is the unlabelled root
(src/json/paths.rs lines 43-46). -/
def joinKey : Option String → String → String
  | some p, k => p ++ "." ++ k
  | none, k => k

/-- Entries one iteration of the `json::get_paths` loop pushes for the
value just popped: object children always; array children only when the
value already carries a path (the unlabelled root array pushes nothing);
scalars push nothing. -/
def childEntries : Option String → Value → List (Option String × Value)
  | curr, .obj m => m.map fun kc => (some (joinKey curr kc.1), kc.2)
  | some p, .arr a => a.enum.map fun ic => (some (p ++ "." ++ toString ic.1), ic.2)
  | none, .arr _ => []
  | _, _ => []

mutual
/-- Structural size of a value (termination measure for the enumeration
loops). -/
def vsize : Value → Nat
  | .obj m => 1 + esize m
  | .arr a => 1 + lsize a
  | _ => 1

/-- Structural size of map entries. -/
def esize : List (String × Value) → Nat
  | [] => 0
  | kc :: rest => 1 + vsize kc.2 + esize rest

/-- Structural size of array elements. -/
def lsize : List Value → Nat
  | [] => 0
  | c :: rest => 1 + vsize c + lsize rest
end

/-- Total size of the values queued in an enumeration stack. -/
def queueSize {α : Type} (q : List (α × Value)) : Nat :=
  (q.map fun e => vsize e.2).sum

/-- The `while let Some(..) = queue.pop()` loop of `json::get_paths`
(src/json/paths.rs lines 34-61).  The Lean list is the stack with its
head as the top, so the children pushed one by one in iteration order
arrive reversed on top of the remaining queue. -/
def pathsLoop : List (Option String × Value) → List String
  | [] => []
  | (curr, v) :: rest =>
      (match curr with | some p => [p] | none => []) ++
        pathsLoop ((childEntries curr v).reverse ++ rest)
termination_by q => queueSize q
decreasing_by
  have hmono : ∀ (mm : List (String × Value)) (g : String × Value → Option String),
      ((mm.map fun kc => ((g kc, kc.2) : Option String × Value)).map fun e => vsize e.2).sum
        ≤ esize mm := by
    intro mm g
    induction mm with
    | nil => simp [esize]
    | cons kc mm2 ih =>
        simp only [List.map_cons, List.sum_cons, esize]
        omega
  have harr : ∀ (aa : List Value) (g : Nat × Value → Option String) (n : Nat),
      (((List.enumFrom n aa).map fun ic => ((g ic, ic.2) : Option String × Value)).map
        fun e => vsize e.2).sum ≤ lsize aa := by
    intro aa g
    induction aa with
    | nil => intro _; simp [lsize, List.enumFrom]
    | cons c aa2 ih =>
        intro n
        simp only [List.enumFrom, List.map_cons, List.sum_cons, lsize]
        have h2 := ih (n + 1)
        omega
  have hpos : ∀ w : Value, 0 < vsize w := by
    intro w; cases w <;> simp [vsize]
  have hlt : ((childEntries curr v).map fun e => vsize e.2).sum < vsize v := by
    cases v with
    | obj m =>
        have h := hmono m (fun kc => some (joinKey curr kc.1))
        simp only [childEntries, vsize]
        omega
    | arr a =>
        cases curr with
        | none => simp only [childEntries, List.map_nil, List.sum_nil]; exact hpos _
        | some p =>
            have h := harr a (fun ic => some (p ++ "." ++ toString ic.1)) 0
            simp only [childEntries, vsize]
            exact Nat.lt_of_le_of_lt h (by omega)
    | null => simp only [childEntries, List.map_nil, List.sum_nil]; exact hpos _
    | bool b => simp only [childEntries, List.map_nil, List.sum_nil]; exact hpos _
    | num n0 => simp only [childEntries, List.map_nil, List.sum_nil]; exact hpos _
    | str st => simp only [childEntries, List.map_nil, List.sum_nil]; exact hpos _
  simp only [queueSize, List.map_append, List.map_reverse, List.sum_append,
    List.sum_reverse, List.map_cons, List.sum_cons]
  omega

/-- `json::get_paths` (src/json/paths.rs): unrooted stack-based
enumeration starting from the root with no pending path. -/
def jsonGetPaths (value : Value) : List String :=
  pathsLoop [(none, value)]

/-- Entries one iteration of the `toml::get_paths` loop pushes
(src/toml/paths.rs lines 36-50): every entry carries a path. -/
def tomlChildEntries (p : String) : Value → List (String × Value)
  | .obj m => m.map fun kc => (p ++ "." ++ kc.1, kc.2)
  | .arr a => a.enum.map fun ic => (p ++ "." ++ toString ic.1, ic.2)
  | _ => []

/-- The inner `while let` loop of `toml::get_paths` (src/toml/paths.rs
lines 33-51). -/
def tomlPathsLoop : List (String × Value) → List String
  | [] => []
  | (p, v) :: rest =>
      p :: tomlPathsLoop ((tomlChildEntries p v).reverse ++ rest)
termination_by q => queueSize q
decreasing_by
  have hmono : ∀ (mm : List (String × Value)) (g : String × Value → String),
      ((mm.map fun kc => ((g kc, kc.2) : String × Value)).map fun e => vsize e.2).sum
        ≤ esize mm := by
    intro mm g
    induction mm with
    | nil => simp [esize]
    | cons kc mm2 ih =>
        simp only [List.map_cons, List.sum_cons, esize]
        omega
  have harr : ∀ (aa : List Value) (g : Nat × Value → String) (n : Nat),
      (((List.enumFrom n aa).map fun ic => ((g ic, ic.2) : String × Value)).map
        fun e => vsize e.2).sum ≤ lsize aa := by
    intro aa g
    induction aa with
    | nil => intro _; simp [lsize, List.enumFrom]
    | cons c aa2 ih =>
        intro n
        simp only [List.enumFrom, List.map_cons, List.sum_cons, lsize]
        have h2 := ih (n + 1)
        omega
  have hpos : ∀ w : Value, 0 < vsize w := by
    intro w; cases w <;> simp [vsize]
  have hlt : ((tomlChildEntries p v).map fun e => vsize e.2).sum < vsize v := by
    cases v with
    | obj m =>
        have h := hmono m (fun kc => p ++ "." ++ kc.1)
        simp only [tomlChildEntries, vsize]
        omega
    | arr a =>
        have h := harr a (fun ic => p ++ "." ++ toString ic.1) 0
        simp only [tomlChildEntries, vsize]
        exact Nat.lt_of_le_of_lt h (by omega)
    | null => simp only [tomlChildEntries, List.map_nil, List.sum_nil]; exact hpos _
    | bool b => simp only [tomlChildEntries, List.map_nil, List.sum_nil]; exact hpos _
    | num n0 => simp only [tomlChildEntries, List.map_nil, List.sum_nil]; exact hpos _
    | str st => simp only [tomlChildEntries, List.map_nil, List.sum_nil]; exact hpos _
  simp only [queueSize, List.map_append, List.map_reverse, List.sum_append,
    List.sum_reverse, List.map_cons, List.sum_cons]
  omega

/-- `toml::get_paths` (src/toml/paths.rs): for each root key in order,
push the entry and drain the stack. -/
def tomlGetPaths (data : Table) : List String :=
  (data.map fun kv => tomlPathsLoop [(kv.1, kv.2)]).flatten

mutual
/-- `json_get_paths` (src/json_paths.rs): rooted recursive enumeration;
the root (and every recursion level) first emits its own label, defaulting
to the `$` sentinel, then prefixes every descendant path with it. -/
def jsonGetPathsRooted : Value → Option String → List String
  | .obj m, symbol => (symbol.getD "$") :: rootedObjPaths (symbol.getD "$") m
  | .arr a, symbol => (symbol.getD "$") :: rootedArrPaths (symbol.getD "$") 0 a
  | _, symbol => [symbol.getD "$"]

/-- Object part of `json_get_paths`: recurse per key, prefixing with the
current symbol. -/
def rootedObjPaths (s : String) : List (String × Value) → List String
  | [] => []
  | kc :: rest =>
      (jsonGetPathsRooted kc.2 (some kc.1)).map (fun p => s ++ "." ++ p)
        ++ rootedObjPaths s rest

/-- Array part of `json_get_paths`: recurse per element with its index
rendered in decimal as the child symbol. -/
def rootedArrPaths (s : String) (i : Nat) : List Value → List String
  | [] => []
  | c :: rest =>
      (jsonGetPathsRooted c (some (toString i))).map (fun p => s ++ "." ++ p)
        ++ rootedArrPaths s (i + 1) rest
end

/-- A key the tokenizer and the readers round-trip: it contains no `.`
separator and does not begin with `[`, so the anchored index regex can
never match it (regardless of the extent of the Unicode digit table) and
the readers treat it as a literal key without faulting. -/
def goodKey (k : String) : Bool :=
  (!k.data.contains '.') && !(k.data.head? == some '[')

/-- Keys of an ordered map are pairwise distinct. -/
def nodupKeysB : List (String × Value) → Bool
  | [] => true
  | kc :: rest => (!rest.any fun kc2 => kc2.1 == kc.1) && nodupKeysB rest

mutual
/-- Documents on which enumeration and reading agree: maps with distinct
round-trippable keys, no arrays anywhere. -/
def goodVal : Value → Bool
  | .obj m => nodupKeysB m && goodEntries m
  | .arr _ => false
  | _ => true

/-- `goodVal` over the entries of a map. -/
def goodEntries : List (String × Value) → Bool
  | [] => true
  | kc :: rest => goodKey kc.1 && goodVal kc.2 && goodEntries rest
end

/-- `goodVal` for a TOML root table. -/
def goodTable (t : Table) : Bool :=
  nodupKeysB t && goodEntries t

/-- Navigation step of `json_update` (src/json_update.rs line 83):
`Value::get_mut` with the raw token string, which indexes objects only
and never classifies the token. -/
def jsonUpdStep (sel : Option Value) (token : String) : Option Value :=
  match sel with
  | some (.obj m) => alookup token m
  | _ => none

/-- Reading at a pending enumeration label: the unlabelled root reads as
itself, a labelled entry through `json::read` with the default
separator. -/
def entryRead (root : Value) : Option String → Option (Option Value)
  | none => some (some root)
  | some p => jsonRead p root none

end Nestac

namespace Nestac

theorem splitDrop_ne_nil (sep : List Char) :
    ∀ (s : List Char) (k : Nat), splitDrop sep k s ≠ [] := by
  intro s
  induction s with
  | nil => intro k; cases k <;> simp [splitDrop]
  | cons c rest ih =>
      intro k
      cases k with
      | succ k2 =>
          rw [splitDrop]
          exact ih k2
      | zero =>
          rw [splitDrop]
          split
          · simp
          · rcases hsp : splitDrop sep 0 rest with _ | ⟨h1, t1⟩
            · exact absurd hsp (ih 0)
            · simp [hsp]

theorem splitTokens_ne_nil (path sep : String) : splitTokens path sep ≠ [] := by
  intro h
  rw [splitTokens, List.map_eq_nil_iff] at h
  exact splitDrop_ne_nil sep.data path.data 0 h

theorem splitDrop_single_cons_self (c : Char) (r : List Char) :
    splitDrop [c] 0 (c :: r) = [] :: splitDrop [c] 0 r := by
  rw [splitDrop]
  split
  · simp
  · rename_i h
    exact absurd ⟨by simp, by simp [List.isPrefixOf]⟩ h

theorem splitDrop_single_cons_ne (c x : Char) (r : List Char) (hx : ¬ c = x) :
    splitDrop [c] 0 (x :: r) =
      match splitDrop [c] 0 r with
      | [] => [[x]]
      | h :: t => (x :: h) :: t := by
  rw [splitDrop]
  split
  · rename_i h
    exfalso
    obtain ⟨-, h2⟩ := h
    simp [List.isPrefixOf] at h2
    exact hx h2
  · rfl

theorem splitDrop_single_not_mem (c : Char) :
    ∀ (a : List Char), ¬ c ∈ a → splitDrop [c] 0 a = [a] := by
  intro a
  induction a with
  | nil => intro _; rfl
  | cons x rest ih =>
      intro h
      simp only [List.mem_cons, not_or] at h
      obtain ⟨hne, hnm⟩ := h
      rw [splitDrop_single_cons_ne c x rest hne, ih hnm]

theorem splitDrop_single_append (c : Char) (b : List Char) :
    ∀ (a : List Char),
      splitDrop [c] 0 (a ++ c :: b) = splitDrop [c] 0 a ++ splitDrop [c] 0 b := by
  intro a
  induction a with
  | nil =>
      rw [List.nil_append, splitDrop_single_cons_self]
      rfl
  | cons x a2 ih =>
      by_cases hx : c = x
      · subst hx
        rw [List.cons_append, splitDrop_single_cons_self,
          splitDrop_single_cons_self, ih]
        rfl
      · rcases hsp : splitDrop [c] 0 a2 with _ | ⟨h1, t1⟩
        · exact absurd hsp (splitDrop_ne_nil [c] a2 0)
        · rw [List.cons_append, splitDrop_single_cons_ne c x _ hx, ih, hsp,
            splitDrop_single_cons_ne c x a2 hx, hsp]
          simp

theorem splitTokens_single (k : String) (h : ¬ '.' ∈ k.data) :
    splitTokens k "." = [k] := by
  show (splitDrop ['.'] 0 k.data).map (fun cs => (⟨cs⟩ : String)) = [k]
  rw [splitDrop_single_not_mem '.' k.data h]
  rfl

theorem splitTokens_append_key (p k : String) (h : ¬ '.' ∈ k.data) :
    splitTokens (p ++ "." ++ k) "." = splitTokens p "." ++ [k] := by
  have hd : (p ++ "." ++ k).data = p.data ++ '.' :: k.data := by
    show (p.data ++ ['.']) ++ k.data = p.data ++ ('.' :: k.data)
    rw [List.append_assoc]
    rfl
  show (splitDrop ['.'] 0 (p ++ "." ++ k).data).map (fun cs => (⟨cs⟩ : String))
      = (splitDrop ['.'] 0 p.data).map (fun cs => (⟨cs⟩ : String)) ++ [k]
  rw [hd, splitDrop_single_append '.' k.data p.data,
    splitDrop_single_not_mem '.' k.data h, List.map_append]
  rfl

theorem alookup_of_mem_nodup :
    ∀ (m : List (String × Value)) (k : String) (c : Value),
      nodupKeysB m = true → (k, c) ∈ m → alookup k m = some c := by
  intro m
  induction m with
  | nil => intro k c _ hm; simp at hm
  | cons kc rest ih =>
      intro k c hn hm
      rw [nodupKeysB, Bool.and_eq_true] at hn
      obtain ⟨hn1, hn2⟩ := hn
      rw [Bool.not_eq_eq_eq_not, Bool.not_true] at hn1
      rcases List.mem_cons.1 hm with he | hm2
      · rw [← he]
        simp [alookup]
      · have hk : (kc.1 == k) = false := by
          cases hkb : (kc.1 == k) with
          | false => rfl
          | true =>
              exfalso
              have hkeq : kc.1 = k := by
                have := beq_iff_eq.1 hkb
                exact this
              have : rest.any (fun kc2 => kc2.1 == kc.1) = true :=
                List.any_eq_true.mpr ⟨(k, c), hm2, by simp [hkeq]⟩
              rw [this] at hn1
              cases hn1
        rw [alookup, if_neg (by simp [hk])]
        exact ih k c hn2 hm2

theorem foldl_readStep_none : ∀ (toks : List String),
    toks.foldl readStep none = none := by
  intro toks
  induction toks with
  | nil => rfl
  | cons t rest ih =>
      rw [List.foldl_cons]
      exact ih

theorem foldl_jsonUpdStep_none : ∀ (toks : List String),
    toks.foldl jsonUpdStep none = none := by
  intro toks
  induction toks with
  | nil => rfl
  | cons t rest ih =>
      rw [List.foldl_cons]
      exact ih

theorem goodKey_not_dot (k : String) (h : goodKey k = true) : ¬ '.' ∈ k.data := by
  rw [goodKey, Bool.and_eq_true] at h
  have h1 := h.1
  rw [Bool.not_eq_eq_eq_not, Bool.not_true] at h1
  intro hmem
  have : k.data.contains '.' = true := List.elem_iff.mpr hmem
  rw [this] at h1
  cases h1

theorem classifyTok_some_some (t : String) (i : Nat) :
    classifyTok t = some (some i) ↔ vecIdx t = some i := by
  unfold classifyTok vecIdx
  cases hc : regexCapture t with
  | none => simp
  | some ds =>
      cases hp : parseUsize ds with
      | none => simp [hp]
      | some n => simp [hp]

theorem classifyTok_key_vecIdx (t : String) (h : classifyTok t = some none) :
    vecIdx t = none := by
  unfold classifyTok at h
  unfold vecIdx
  cases hc : regexCapture t with
  | none => simp
  | some ds =>
      rw [hc] at h
      cases hp : parseUsize ds with
      | none => simp [hp]
      | some n => simp [hp] at h

theorem classifyTok_panic_iff (t : String) :
    classifyTok t = none ↔
      ∃ ds, regexCapture t = some ds ∧ parseUsize ds = none := by
  unfold classifyTok
  cases hc : regexCapture t with
  | none => simp
  | some ds =>
      cases hp : parseUsize ds with
      | none => simp [hp]
      | some n => simp [hp]

theorem classifyTok_head_ne (t : String) (h : ¬ t.data.head? = some '[') :
    classifyTok t = some none := by
  have hc : regexCapture t = none := by
    rcases htd : t.data with _ | ⟨c, rest⟩
    · unfold regexCapture
      rw [htd]
    · have hch : ¬ c = '[' := by
        intro he
        exact h (by rw [htd, he]; rfl)
      unfold regexCapture
      rw [htd]
      simp [hch]
  unfold classifyTok
  rw [hc]

theorem goodKey_head (k : String) (h : goodKey k = true) :
    ¬ k.data.head? = some '[' := by
  rw [goodKey, Bool.and_eq_true] at h
  have h2 := h.2
  rw [Bool.not_eq_eq_eq_not, Bool.not_true] at h2
  intro he
  rw [he] at h2
  simp at h2

theorem goodKey_classify (k : String) (h : goodKey k = true) :
    classifyTok k = some none :=
  classifyTok_head_ne k (goodKey_head k h)

theorem readStepP_key (s : Option Value) (t : String)
    (hc : classifyTok t = some none) :
    readStepP (some s) t = some (s.bind fun v => Value.getKey v t) := by
  unfold readStepP
  rw [hc]

theorem readStepP_panic (s : Option Value) (t : String)
    (hc : classifyTok t = none) :
    readStepP (some s) t = none := by
  unfold readStepP
  rw [hc]

theorem foldl_readStepP_none : ∀ (toks : List String),
    toks.foldl readStepP none = none := by
  intro toks
  induction toks with
  | nil => rfl
  | cons t rest ih =>
      rw [List.foldl_cons]
      exact ih

theorem goodVal_obj_parts (m : List (String × Value))
    (h : goodVal (.obj m) = true) :
    nodupKeysB m = true ∧ goodEntries m = true := by
  rw [goodVal, Bool.and_eq_true] at h
  exact h

theorem goodVal_not_arr (a : List Value) (h : goodVal (.arr a) = true) : False := by
  rw [goodVal] at h
  cases h

theorem goodEntries_mem :
    ∀ (m : List (String × Value)) (kc : String × Value),
      goodEntries m = true → kc ∈ m → goodKey kc.1 = true ∧ goodVal kc.2 = true := by
  intro m
  induction m with
  | nil => intro kc _ hm; simp at hm
  | cons kc0 rest ih =>
      intro kc hg hm
      rw [goodEntries, Bool.and_eq_true, Bool.and_eq_true] at hg
      obtain ⟨⟨hg1, hg2⟩, hg3⟩ := hg
      rcases List.mem_cons.1 hm with he | hm2
      · rw [he]
        exact ⟨hg1, hg2⟩
      · exact ih kc hg3 hm2

theorem readStep_obj_key (m : List (String × Value)) (k : String)
    (hk : vecIdx k = none) :
    readStep (some (.obj m)) k = alookup k m := by
  rw [readStep, hk]
  rfl

theorem jsonGo_nav_none (newValue : Value) :
    ∀ (pre : List String) (last : String) (v : Value),
      pre.foldl jsonUpdStep (some v) = none →
      jsonUpdateGo v (pre ++ [last]) newValue = none := by
  intro pre
  induction pre with
  | nil => intro last v hnav; simp at hnav
  | cons p pre2 ih =>
      intro last v hnav
      rw [List.foldl_cons] at hnav
      cases v with
      | obj m =>
          have hstep : jsonUpdStep (some (.obj m)) p = alookup p m := rfl
          rw [hstep] at hnav
          cases halo : alookup p m with
          | none =>
              rw [halo] at hnav
              cases pre2 with
              | nil => simp [jsonUpdateGo, halo]
              | cons p2 pre3 => simp [jsonUpdateGo, halo]
          | some c =>
              rw [halo] at hnav
              cases pre2 with
              | nil => simp at hnav
              | cons p2 pre3 =>
                  have hrec : jsonUpdateGo c (p2 :: (pre3 ++ [last])) newValue = none := by
                    have h2 := ih last c hnav
                    rw [List.cons_append] at h2
                    exact h2
                  rw [List.cons_append, List.cons_append]
                  simp only [jsonUpdateGo, halo, hrec]
      | null =>
          cases pre2 with
          | nil => simp [jsonUpdateGo]
          | cons p2 pre3 => simp [jsonUpdateGo]
      | bool b =>
          cases pre2 with
          | nil => simp [jsonUpdateGo]
          | cons p2 pre3 => simp [jsonUpdateGo]
      | num n0 =>
          cases pre2 with
          | nil => simp [jsonUpdateGo]
          | cons p2 pre3 => simp [jsonUpdateGo]
      | str s0 =>
          cases pre2 with
          | nil => simp [jsonUpdateGo]
          | cons p2 pre3 => simp [jsonUpdateGo]
      | arr a0 =>
          cases pre2 with
          | nil => simp [jsonUpdateGo]
          | cons p2 pre3 => simp [jsonUpdateGo]

theorem tomlGo_nav_none (newValue : Value) :
    ∀ (pre : List String) (last : String) (v : Value),
      pre.foldl readStep (some v) = none →
      tomlUpdateGo v (pre ++ [last]) newValue = none := by
  intro pre
  induction pre with
  | nil => intro last v hnav; simp at hnav
  | cons p pre2 ih =>
      intro last v hnav
      rw [List.foldl_cons] at hnav
      cases hcl : classifyTok p with
      | none =>
          cases pre2 with
          | nil => simp [tomlUpdateGo, hcl]
          | cons p2 pre3 => simp [tomlUpdateGo, hcl]
      | some cls =>
          cases cls with
          | none =>
              have hv : vecIdx p = none := classifyTok_key_vecIdx p hcl
              cases v with
              | obj m =>
                  have hstep : readStep (some (.obj m)) p = alookup p m :=
                    readStep_obj_key m p hv
                  rw [hstep] at hnav
                  cases halo : alookup p m with
                  | none =>
                      cases pre2 with
                      | nil => simp [tomlUpdateGo, hcl, halo]
                      | cons p2 pre3 => simp [tomlUpdateGo, hcl, halo]
                  | some c =>
                      rw [halo] at hnav
                      cases pre2 with
                      | nil => simp at hnav
                      | cons p2 pre3 =>
                          have hrec : tomlUpdateGo c (p2 :: (pre3 ++ [last])) newValue
                              = none := by
                            have h2 := ih last c hnav
                            rw [List.cons_append] at h2
                            exact h2
                          rw [List.cons_append, List.cons_append]
                          simp only [tomlUpdateGo, hcl, halo, hrec]
              | null =>
                  cases pre2 with
                  | nil => simp [tomlUpdateGo, hcl]
                  | cons p2 pre3 => simp [tomlUpdateGo, hcl]
              | bool b =>
                  cases pre2 with
                  | nil => simp [tomlUpdateGo, hcl]
                  | cons p2 pre3 => simp [tomlUpdateGo, hcl]
              | num n0 =>
                  cases pre2 with
                  | nil => simp [tomlUpdateGo, hcl]
                  | cons p2 pre3 => simp [tomlUpdateGo, hcl]
              | str s0 =>
                  cases pre2 with
                  | nil => simp [tomlUpdateGo, hcl]
                  | cons p2 pre3 => simp [tomlUpdateGo, hcl]
              | arr a0 =>
                  cases pre2 with
                  | nil => simp [tomlUpdateGo, hcl]
                  | cons p2 pre3 => simp [tomlUpdateGo, hcl]
          | some i =>
              have hv : vecIdx p = some i := (classifyTok_some_some p i).1 hcl
              cases v with
              | arr a =>
                  have hstep : readStep (some (.arr a)) p = a[i]? := by
                    simp [readStep, hv, Value.getIdx]
                  rw [hstep] at hnav
                  cases hget : a[i]? with
                  | none =>
                      cases pre2 with
                      | nil => simp [tomlUpdateGo, hcl, hget]
                      | cons p2 pre3 => simp [tomlUpdateGo, hcl, hget]
                  | some c =>
                      rw [hget] at hnav
                      cases pre2 with
                      | nil => simp at hnav
                      | cons p2 pre3 =>
                          have hrec : tomlUpdateGo c (p2 :: (pre3 ++ [last])) newValue
                              = none := by
                            have h2 := ih last c hnav
                            rw [List.cons_append] at h2
                            exact h2
                          rw [List.cons_append, List.cons_append]
                          simp only [tomlUpdateGo, hcl, hget, hrec]
              | null =>
                  cases pre2 with
                  | nil => simp [tomlUpdateGo, hcl]
                  | cons p2 pre3 => simp [tomlUpdateGo, hcl]
              | bool b =>
                  cases pre2 with
                  | nil => simp [tomlUpdateGo, hcl]
                  | cons p2 pre3 => simp [tomlUpdateGo, hcl]
              | num n0 =>
                  cases pre2 with
                  | nil => simp [tomlUpdateGo, hcl]
                  | cons p2 pre3 => simp [tomlUpdateGo, hcl]
              | str s0 =>
                  cases pre2 with
                  | nil => simp [tomlUpdateGo, hcl]
                  | cons p2 pre3 => simp [tomlUpdateGo, hcl]
              | obj m =>
                  cases pre2 with
                  | nil => simp [tomlUpdateGo, hcl]
                  | cons p2 pre3 => simp [tomlUpdateGo, hcl]

theorem jsonRead_child (root : Value) (curr : Option String)
    (m : List (String × Value)) (k : String) (c : Value)
    (hcur : entryRead root curr = some (some (.obj m))) (hk : goodKey k = true)
    (hnd : nodupKeysB m = true) (hmem : (k, c) ∈ m) :
    jsonRead (joinKey curr k) root none = some (some c) := by
  have hcl : classifyTok k = some none := goodKey_classify k hk
  cases curr with
  | none =>
      have hroot : root = .obj m := by
        simpa [entryRead] using hcur
      have htok : splitTokens k "." = [k] :=
        splitTokens_single k (goodKey_not_dot k hk)
      rw [joinKey, jsonRead]
      rw [show (none : Option String).getD "." = "." from rfl, htok,
        List.foldl_cons, List.foldl_nil, hroot, readStepP_key _ k hcl]
      show some (alookup k m) = some (some c)
      rw [alookup_of_mem_nodup m k c hnd hmem]
  | some p0 =>
      have hcur2 : (splitTokens p0 ".").foldl readStepP (some (some root))
          = some (some (.obj m)) := hcur
      have htok : splitTokens (p0 ++ "." ++ k) "."
          = splitTokens p0 "." ++ [k] :=
        splitTokens_append_key p0 k (goodKey_not_dot k hk)
      rw [joinKey, jsonRead]
      rw [show (none : Option String).getD "." = "." from rfl, htok,
        List.foldl_append, hcur2, List.foldl_cons, List.foldl_nil,
        readStepP_key _ k hcl]
      show some (alookup k m) = some (some c)
      rw [alookup_of_mem_nodup m k c hnd hmem]

theorem pathsLoop_sound (root : Value) :
    ∀ (q : List (Option String × Value)),
      (∀ e ∈ q, goodVal e.2 = true ∧ entryRead root e.1 = some (some e.2)) →
      ∀ p ∈ pathsLoop q, ∃ w, jsonRead p root none = some (some w) := by
  intro q
  induction q using pathsLoop.induct with
  | case1 =>
      intro _ p hp
      simp [pathsLoop] at hp
  | case2 curr v rest ih =>
      intro hinv p hp
      rw [pathsLoop.eq_def] at hp
      rcases List.mem_append.1 hp with hp1 | hp2
      · cases curr with
        | none => simp at hp1
        | some p0 =>
            simp at hp1
            subst hp1
            exact ⟨v, (hinv (some p, v) (by simp)).2⟩
      · obtain ⟨hgood, hread⟩ := hinv (curr, v) (by simp)
        refine ih ?_ p hp2
        intro e he
        rcases List.mem_append.1 he with her | hes
        · rw [List.mem_reverse] at her
          cases v with
          | obj m =>
              rw [childEntries] at her
              rcases List.mem_map.1 her with ⟨kc, hkc, hfe⟩
              obtain ⟨hnd, hge⟩ := goodVal_obj_parts m hgood
              obtain ⟨hgk, hgv⟩ := goodEntries_mem m kc hge hkc
              subst hfe
              refine ⟨hgv, ?_⟩
              show jsonRead (joinKey curr kc.1) root none = some (some kc.2)
              exact jsonRead_child root curr m kc.1 kc.2 hread hgk hnd
                (by rw [show ((kc.1, kc.2) : String × Value) = kc from rfl]; exact hkc)
          | arr a0 => exact absurd hgood (by simp [goodVal])
          | null => cases curr <;> simp [childEntries] at her
          | bool b => cases curr <;> simp [childEntries] at her
          | num n0 => cases curr <;> simp [childEntries] at her
          | str s0 => cases curr <;> simp [childEntries] at her
        · exact hinv e (List.mem_cons_of_mem _ hes)

theorem tomlRead_child (table : Table) (pp : String)
    (m : List (String × Value)) (k : String) (c : Value)
    (hcur : tomlRead pp table none = some (some (.obj m))) (hk : goodKey k = true)
    (hnd : nodupKeysB m = true) (hmem : (k, c) ∈ m) :
    tomlRead (pp ++ "." ++ k) table none = some (some c) := by
  have hcl : classifyTok k = some none := goodKey_classify k hk
  rcases htok : splitTokens pp "." with _ | ⟨t0, restp⟩
  · exact absurd htok (splitTokens_ne_nil pp ".")
  · have htok2 : splitTokens (pp ++ "." ++ k) "." = t0 :: (restp ++ [k]) := by
      rw [splitTokens_append_key pp k (goodKey_not_dot k hk), htok]
      rfl
    cases halo : alookup t0 table with
    | none =>
        simp only [tomlRead, Option.getD_none, htok, halo] at hcur
        simp at hcur
    | some v0 =>
        simp only [tomlRead, Option.getD_none, htok, halo] at hcur
        simp only [tomlRead, Option.getD_none, htok2, halo]
        rw [List.foldl_append, hcur, List.foldl_cons, List.foldl_nil,
          readStepP_key _ k hcl]
        show some (alookup k m) = some (some c)
        rw [alookup_of_mem_nodup m k c hnd hmem]

theorem tomlPathsLoop_sound (table : Table) :
    ∀ (q : List (String × Value)),
      (∀ e ∈ q, goodVal e.2 = true ∧ tomlRead e.1 table none = some (some e.2)) →
      ∀ p ∈ tomlPathsLoop q, ∃ w, tomlRead p table none = some (some w) := by
  intro q
  induction q using tomlPathsLoop.induct with
  | case1 =>
      intro _ p hp
      simp [tomlPathsLoop] at hp
  | case2 p0 v rest ih =>
      intro hinv p hp
      rw [tomlPathsLoop.eq_def] at hp
      rcases List.mem_cons.1 hp with hp1 | hp2
      · subst hp1
        exact ⟨v, (hinv (p, v) (by simp)).2⟩
      · obtain ⟨hgood, hread⟩ := hinv (p0, v) (by simp)
        refine ih ?_ p hp2
        intro e he
        rcases List.mem_append.1 he with her | hes
        · rw [List.mem_reverse] at her
          cases v with
          | obj m =>
              rw [tomlChildEntries] at her
              rcases List.mem_map.1 her with ⟨kc, hkc, hfe⟩
              obtain ⟨hnd, hge⟩ := goodVal_obj_parts m hgood
              obtain ⟨hgk, hgv⟩ := goodEntries_mem m kc hge hkc
              subst hfe
              refine ⟨hgv, ?_⟩
              show tomlRead (p0 ++ "." ++ kc.1) table none = some (some kc.2)
              exact tomlRead_child table p0 m kc.1 kc.2 hread hgk hnd
                (by rw [show ((kc.1, kc.2) : String × Value) = kc from rfl]; exact hkc)
          | arr a0 => exact absurd hgood (by simp [goodVal])
          | null => simp [tomlChildEntries] at her
          | bool b => simp [tomlChildEntries] at her
          | num n0 => simp [tomlChildEntries] at her
          | str s0 => simp [tomlChildEntries] at her
        · exact hinv e (List.mem_cons_of_mem _ hes)

theorem tomlGetPaths_root_read (t : Table) (kv : String × Value)
    (hnd : nodupKeysB t = true) (hge : goodEntries t = true) (hkv : kv ∈ t) :
    tomlRead kv.1 t none = some (some kv.2) := by
  obtain ⟨hgk, -⟩ := goodEntries_mem t kv hge hkv
  have htok : splitTokens kv.1 "." = [kv.1] :=
    splitTokens_single kv.1 (goodKey_not_dot kv.1 hgk)
  have halo : alookup kv.1 t = some kv.2 :=
    alookup_of_mem_nodup t kv.1 kv.2 hnd
      (by rw [show ((kv.1, kv.2) : String × Value) = kv from rfl]; exact hkv)
  simp only [tomlRead, Option.getD_none, htok, halo, List.foldl_nil]

/-- C1 (counterexample): the claim fails as stated.  The unrooted JSON
enumerator renders array elements as bare-digit segments (`foo.0`) that the
reader does not resolve (the reader only treats `[0]` as an index); the
rooted `json_get_paths` emits the `$` sentinel, which is not a key of the
document; the TOML enumerator has the same bare-digit array convention;
and a Map key such as `[٤]` (a bracketed non-ASCII Unicode digit) is
emitted by the enumerator, matched by the reader's Unicode `\d` regex,
and then panics in `cap[1].parse::<usize>().unwrap()` (outer `none`)
instead of resolving. -/
theorem c1_counterexample :
    ("foo.0" ∈ jsonGetPaths (.obj [("foo", .arr [.str "a"])])
      ∧ jsonRead "foo.0" (.obj [("foo", .arr [.str "a"])]) none = some none)
  ∧ ("$" ∈ jsonGetPathsRooted (.obj [("foo", .num 1)]) none
      ∧ jsonRead "$" (.obj [("foo", .num 1)]) none = some none)
  ∧ ("foo.0" ∈ tomlGetPaths [("foo", .arr [.str "a"])]
      ∧ tomlRead "foo.0" [("foo", .arr [.str "a"])] none = some none)
  ∧ ("[٤]" ∈ jsonGetPaths (.obj [("[٤]", .num 1)])
      ∧ jsonRead "[٤]" (.obj [("[٤]", .num 1)]) none = none) := by
  refine ⟨⟨?_, rfl⟩, ⟨?_, rfl⟩, ⟨?_, rfl⟩, ⟨?_, rfl⟩⟩
  · have he : jsonGetPaths (.obj [("foo", .arr [.str "a"])]) = ["foo", "foo.0"] := by
      simp [jsonGetPaths, pathsLoop, childEntries, joinKey]
      rfl
    rw [he]
    simp
  · decide
  · have he : tomlGetPaths [("foo", .arr [.str "a"])] = ["foo", "foo.0"] := by
      simp [tomlGetPaths, tomlPathsLoop, tomlChildEntries]
      rfl
    rw [he]
    simp
  · have he : jsonGetPaths (.obj [("[٤]", .num 1)]) = ["[٤]"] := by
      simp [jsonGetPaths, pathsLoop, childEntries, joinKey]
    rw [he]
    simp

/-- C1 (amended): for documents with no Sequence nodes whose Map keys are
separator-free, do not begin with `[` (so the index regex can never match
them and the parse unwrap can never fault, whatever `\d` matches), and
are pairwise distinct, every path the unrooted enumerators
`json::get_paths` and `toml::get_paths` emit resolves to a present value
through the corresponding reader with the default separator.  (The rooted
`json_get_paths` sentinel paths, bare-digit Sequence paths, and
bracket-initial keys do not resolve — see the counterexample.) -/
theorem c1_enum_read_agree_amended :
    (∀ (v : Value), goodVal v = true →
      ∀ p ∈ jsonGetPaths v, ∃ w, jsonRead p v none = some (some w))
  ∧ (∀ (t : Table), goodTable t = true →
      ∀ p ∈ tomlGetPaths t, ∃ w, tomlRead p t none = some (some w)) := by
  constructor
  · intro v hg p hp
    refine pathsLoop_sound v [(none, v)] ?_ p hp
    intro e he
    simp only [List.mem_singleton] at he
    subst he
    exact ⟨hg, rfl⟩
  · intro t hgt p hp
    rw [tomlGetPaths] at hp
    rcases List.mem_flatten.1 hp with ⟨l, hl, hpl⟩
    rcases List.mem_map.1 hl with ⟨kv, hkv, hle⟩
    subst hle
    rw [goodTable, Bool.and_eq_true] at hgt
    obtain ⟨hnd, hge⟩ := hgt
    refine tomlPathsLoop_sound t [(kv.1, kv.2)] ?_ p hpl
    intro e he
    simp only [List.mem_singleton] at he
    subst he
    exact ⟨(goodEntries_mem t kv hge hkv).2,
      tomlGetPaths_root_read t kv hnd hge hkv⟩

/-- C1 (witness): a concrete good document on which the amended theorem
applies to the emitted path `foo.bar`. -/
theorem c1_enum_read_agree_witness :
    goodVal (.obj [("foo", .obj [("bar", .str "bingo!")])]) = true
  ∧ (∃ w, jsonRead "foo.bar"
      (.obj [("foo", .obj [("bar", .str "bingo!")])]) none = some (some w)) := by
  refine ⟨rfl, ?_⟩
  refine c1_enum_read_agree_amended.1
    (.obj [("foo", .obj [("bar", .str "bingo!")])]) rfl "foo.bar" ?_
  have he : jsonGetPaths (.obj [("foo", .obj [("bar", .str "bingo!")])])
      = ["foo", "foo.bar"] := by
    simp [jsonGetPaths, pathsLoop, childEntries, joinKey]
  rw [he]
  simp

/-- C3 (counterexample): on `{"x": 1}` with path `a.b` the intermediate
key `a` is missing (the update navigation yields `none` after the first
token), and both updates fault — `unwrap()` on `None` panics, modelled as
the outer `none` — instead of returning a silent in-band `none` with the
document unchanged (which would be `some (none, d)` in this model). -/
theorem c3_counterexample :
    splitTokens "a.b" "." = ["a", "b"]
  ∧ List.foldl jsonUpdStep (some (.obj [("x", .num 1)])) ["a"] = none
  ∧ jsonUpdate (.obj [("x", .num 1)]) "a.b" none (.num 2) = none
  ∧ jsonUpdate (.obj [("x", .num 1)]) "a.b" none (.num 2)
      ≠ some (none, .obj [("x", .num 1)])
  ∧ tomlUpdate [("x", .num 1)] "a.b" none (.num 2) = none := by
  refine ⟨rfl, rfl, rfl, ?_, rfl⟩
  intro h
  rw [show jsonUpdate (.obj [("x", .num 1)]) "a.b" none (.num 2) = none from rfl] at h
  cases h

/-- C3 (amended): when navigating all tokens but the last yields no parent
node, both `json_update` and `toml::update` fault (an `unwrap` panic),
modelled as the outer `none`; the call is a fatal fault, not a silent
in-band `none`, and no mutated document is produced. -/
theorem c3_missing_parent_amended :
    (∀ (d : Value) (path : String) (sep : Option String) (v : Value)
        (pre : List String) (last : String),
        splitTokens path (sep.getD ".") = pre ++ [last] →
        pre.foldl jsonUpdStep (some d) = none →
        jsonUpdate d path sep v = none)
  ∧ (∀ (tb : Table) (path : String) (sep : Option String) (v : Value)
        (t0 : String) (mid : List String) (last : String),
        splitTokens path (sep.getD ".") = t0 :: (mid ++ [last]) →
        mid.foldl readStep (alookup t0 tb) = none →
        tomlUpdate tb path sep v = none) := by
  constructor
  · intro d path sep v pre last htoks hnav
    show jsonUpdateGo d (splitTokens path (sep.getD ".")) v = none
    rw [htoks]
    exact jsonGo_nav_none v pre last d hnav
  · intro tb path sep v t0 mid last htoks hnav
    cases mid with
    | nil =>
        have halo : alookup t0 tb = none := hnav
        simp [tomlUpdate, htoks, halo]
    | cons m1 m2 =>
        cases halo : alookup t0 tb with
        | none => simp [tomlUpdate, htoks, halo]
        | some v0 =>
            rw [halo] at hnav
            have hgo := tomlGo_nav_none v (m1 :: m2) last v0 hnav
            rw [List.cons_append] at hgo
            simp [tomlUpdate, htoks, halo, hgo]

/-- C3 (witness): the amended JSON statement applied at a concrete missing
intermediate key. -/
theorem c3_missing_parent_witness :
    jsonUpdate (.obj [("q", .num 5)]) "a.b" none (.num 9) = none :=
  c3_missing_parent_amended.1 (.obj [("q", .num 5)]) "a.b" none (.num 9)
    ["a"] "b" rfl rfl

/-- C4 (counterexample): `foo.[1]` addresses position 1 of the 2-element
Sequence under `foo`, which is in range, yet `json_update` faults
(`as_object_mut().unwrap()` panics on the array) instead of replacing the
element and returning the prior one — the claimed behaviour does not hold
for the JSON update. -/
theorem c4_counterexample :
    vecIdx "[1]" = some 1
  ∧ jsonUpdate (.obj [("foo", .arr [.str "a", .str "b"])]) "foo.[1]" none
      (.str "z") = none
  ∧ jsonUpdate (.obj [("foo", .arr [.str "a", .str "b"])]) "foo.[1]" none
      (.str "z")
      ≠ some (some (.str "b"), .obj [("foo", .arr [.str "a", .str "z"])]) := by
  refine ⟨rfl, rfl, ?_⟩
  intro h
  rw [show jsonUpdate (.obj [("foo", .arr [.str "a", .str "b"])]) "foo.[1]" none
      (.str "z") = none from rfl] at h
  cases h

/-- C4 (amended): at the final mutation step with a Sequence parent and a
successfully parsed Index token, `toml::update` behaves as claimed — in
range it replaces the element and returns the prior one, out of range it
faults (bounds are not extended).  `json_update`, however, faults on any
Sequence parent at the final step regardless of the token. -/
theorem c4_seq_index_final_amended :
    (∀ (a : List Value) (t : String) (i : Nat) (v : Value) (h : i < a.length),
        vecIdx t = some i →
        tomlUpdateGo (.arr a) [t] v = some (some a[i], .arr (a.set i v)))
  ∧ (∀ (a : List Value) (t : String) (i : Nat) (v : Value),
        a.length ≤ i → vecIdx t = some i →
        tomlUpdateGo (.arr a) [t] v = none)
  ∧ (∀ (a : List Value) (t : String) (v : Value),
        jsonUpdateGo (.arr a) [t] v = none) := by
  refine ⟨?_, ?_, ?_⟩
  · intro a t i v h hvec
    have hcl : classifyTok t = some (some i) := (classifyTok_some_some t i).2 hvec
    simp only [tomlUpdateGo, hcl]
    rw [dif_pos h]
  · intro a t i v h hvec
    have hcl : classifyTok t = some (some i) := (classifyTok_some_some t i).2 hvec
    simp only [tomlUpdateGo, hcl]
    rw [dif_neg (by omega)]
  · intro a t v
    rfl

/-- C4 (witness): the amended TOML statement applied to an in-range index
replacement. -/
theorem c4_seq_index_final_witness :
    tomlUpdateGo (.arr [.str "x", .str "y"]) ["[1]"] (.str "z")
      = some (some (.str "y"), .arr [.str "x", .str "z"]) :=
  c4_seq_index_final_amended.1 [.str "x", .str "y"] "[1]" 1 (.str "z")
    (by decide) rfl

/-- C5 (counterexample): a Map parent with the index-shaped final token
`[0]` is not a fatal error for `json_update`: the token is silently
inserted as the literal key `"[0]"` and the call returns normally. -/
theorem c5_counterexample :
    jsonUpdate (.obj [("foo", .obj [("k", .num 1)])]) "foo.[0]" none (.num 7)
      = some (none, .obj [("foo", .obj [("k", .num 1), ("[0]", .num 7)])])
  ∧ jsonUpdate (.obj [("foo", .obj [("k", .num 1)])]) "foo.[0]" none (.num 7)
      ≠ none := by
  refine ⟨rfl, ?_⟩
  intro h
  rw [show jsonUpdate (.obj [("foo", .obj [("k", .num 1)])]) "foo.[0]" none
      (.num 7)
      = some (none, .obj [("foo", .obj [("k", .num 1), ("[0]", .num 7)])])
      from rfl] at h
  cases h

/-- C5 (amended): at the final mutation step, `toml::update` faults on both
mismatched combinations (Map parent with Index token, Sequence parent with
Key token), and `json_update` faults on a Sequence parent with any token;
but `json_update` on a Map parent with an index-shaped token silently
inserts the literal token text as a Map key and returns normally. -/
theorem c5_shape_mismatch_amended :
    (∀ (m : List (String × Value)) (t : String) (i : Nat) (v : Value),
        vecIdx t = some i → tomlUpdateGo (.obj m) [t] v = none)
  ∧ (∀ (a : List Value) (t : String) (v : Value),
        vecIdx t = none → tomlUpdateGo (.arr a) [t] v = none)
  ∧ (∀ (a : List Value) (t : String) (v : Value),
        jsonUpdateGo (.arr a) [t] v = none)
  ∧ (∀ (m : List (String × Value)) (t : String) (i : Nat) (v : Value),
        vecIdx t = some i →
        jsonUpdateGo (.obj m) [t] v = some (alookup t m, .obj (setA t v m))) := by
  refine ⟨?_, ?_, ?_, ?_⟩
  · intro m t i v hvec
    have hcl : classifyTok t = some (some i) := (classifyTok_some_some t i).2 hvec
    simp [tomlUpdateGo, hcl]
  · intro a t v hvec
    cases hcl : classifyTok t with
    | none => simp [tomlUpdateGo, hcl]
    | some cls =>
        cases cls with
        | none => simp [tomlUpdateGo, hcl]
        | some i =>
            have := (classifyTok_some_some t i).1 hcl
            rw [this] at hvec
            cases hvec
  · intro a t v
    rfl
  · intro m t i v hvec
    rfl

/-- C5 (witness): the amended statement applied concretely — map parent
with index-shaped token silently inserts a literal `"[0]"` key. -/
theorem c5_shape_mismatch_witness :
    jsonUpdateGo (.obj [("k", .num 1)]) ["[0]"] (.num 7)
      = some (none, .obj [("k", .num 1), ("[0]", .num 7)]) :=
  c5_shape_mismatch_amended.2.2.2 [("k", .num 1)] "[0]" 0 (.num 7) rfl

theorem takeWhile_all_append (p : Char → Bool) (x : Char) (r2 : List Char)
    (hx : p x = false) :
    ∀ (l : List Char), (∀ c ∈ l, p c = true) →
      (l ++ x :: r2).takeWhile p = l ∧ (l ++ x :: r2).dropWhile p = x :: r2 := by
  intro l
  induction l with
  | nil =>
      intro _
      constructor
      · simp [List.takeWhile_cons, hx]
      · simp [List.dropWhile_cons, hx]
  | cons c l2 ih =>
      intro hall
      have hc : p c = true := hall c (List.mem_cons_self c l2)
      obtain ⟨ih1, ih2⟩ := ih (fun c2 hc2 => hall c2 (List.mem_cons_of_mem c hc2))
      constructor
      · simp [List.takeWhile_cons, hc, ih1]
      · simp [List.dropWhile_cons, hc, ih2]

theorem isNd_of_isDigit (c : Char) (h : c.isDigit = true) : isNd c = true := by
  unfold isNd
  rw [h]
  rfl

theorem regexCapture_some_iff (t : String) (ds : List Char) :
    regexCapture t = some ds ↔
      ds ≠ [] ∧ (∀ c ∈ ds, isNd c = true) ∧ t.data = '[' :: (ds ++ [']']) := by
  constructor
  · intro h
    unfold regexCapture at h
    rcases htd : t.data with _ | ⟨c, rest⟩
    · rw [htd] at h
      exact Option.noConfusion h
    · rw [htd] at h
      by_cases hc : c = '['
      · subst hc
        have h2 : (if ('[' : Char) = '[' then
              (let p := rest.span isNd
               if p.1 ≠ [] ∧ p.2 = [']'] then some p.1 else none)
            else none) = some ds := h
        rw [if_pos rfl] at h2
        simp only [List.span_eq_take_drop] at h2
        split at h2
        · rename_i hcond
          obtain ⟨hne, hdrop⟩ := hcond
          simp only [Option.some.injEq] at h2
          subst h2
          refine ⟨hne, ?_, ?_⟩
          · intro c2 hc2
            exact List.mem_takeWhile_imp hc2
          · rw [← hdrop, List.takeWhile_append_dropWhile]
        · exact Option.noConfusion h2
      · have h2 : (if c = '[' then
              (let p := rest.span isNd
               if p.1 ≠ [] ∧ p.2 = [']'] then some p.1 else none)
            else none) = some ds := h
        rw [if_neg hc] at h2
        exact Option.noConfusion h2
  · rintro ⟨hne, hnd, htd⟩
    have hsplit := takeWhile_all_append isNd ']' [] (by decide) ds hnd
    unfold regexCapture
    rw [htd]
    simp [List.span_eq_take_drop, hsplit.1, hsplit.2, hne]

/-- C7 (counterexample): `[0]` is classified as an Index by the regex, but
the TOML reader never classifies the first token: it looks `[0]` up as a
literal key of the root table and finds it, whereas the classification
step (`readStep`) applied to the same Map yields absent.  Moreover a
regex-matching token whose digits overflow `usize`, or use non-ASCII
Unicode digits, is neither parsed to an integer nor treated as a literal
Key: the parse unwrap panics (`classifyTok` is the fatal `none`). -/
theorem c7_counterexample :
    vecIdx "[0]" = some 0
  ∧ tomlRead "[0]" [("[0]", .num 1)] none = some (some (.num 1))
  ∧ readStep (some (.obj [("[0]", .num 1)])) "[0]" = none
  ∧ classifyTok "[18446744073709551616]" = none
  ∧ classifyTok "[٤]" = none :=
  ⟨rfl, rfl, rfl, rfl, rfl⟩

/-- C7 (amended): a token is successfully classified as an Index exactly
when it is `[` then one or more ASCII digits then `]` with the decimal
value below `2^64` (the 64-bit `usize` bound); a token the Unicode-digit
regex matches whose digit run fails that parse (non-ASCII digits or
overflow) is a fatal fault of the call, not a Key; every token the regex
does not match is a Key used literally.  The JSON reader applies this
classification at every step, but the TOML reader always treats the FIRST
token as a literal Map key of the root table, bypassing classification at
that step. -/
theorem c7_index_classification_amended :
    (∀ (t : String) (n : Nat),
        vecIdx t = some n ↔
          ∃ ds : List Char, ds ≠ [] ∧ (∀ c ∈ ds, c.isDigit = true) ∧
            natOfDigits ds < 2 ^ 64 ∧ t.data = '[' :: (ds ++ [']']) ∧
            n = natOfDigits ds)
  ∧ (∀ (t : String), classifyTok t = none ↔
        ∃ ds, regexCapture t = some ds ∧ parseUsize ds = none)
  ∧ (∀ (tb : Table) (k : String), ¬ '.' ∈ k.data →
        tomlRead k tb none = some (alookup k tb)) := by
  refine ⟨?_, ?_, ?_⟩
  · intro t n
    constructor
    · intro h
      unfold vecIdx at h
      cases hc : regexCapture t with
      | none => rw [hc] at h; exact Option.noConfusion h
      | some ds =>
          rw [hc] at h
          have hp : parseUsize ds = some n := h
          obtain ⟨hne, -, htd⟩ := (regexCapture_some_iff t ds).1 hc
          unfold parseUsize at hp
          split at hp
          · rename_i hcond
            obtain ⟨hdig, hlt⟩ := hcond
            simp only [Option.some.injEq] at hp
            exact ⟨ds, hne, hdig, hlt, htd, hp.symm⟩
          · exact Option.noConfusion hp
    · rintro ⟨ds, hne, hdig, hlt, htd, hn⟩
      have hcap : regexCapture t = some ds :=
        (regexCapture_some_iff t ds).2
          ⟨hne, fun c hc => isNd_of_isDigit c (hdig c hc), htd⟩
      unfold vecIdx
      rw [hcap]
      show parseUsize ds = some n
      unfold parseUsize
      rw [if_pos ⟨hdig, hlt⟩, hn]
  · intro t
    exact classifyTok_panic_iff t
  · intro tb k hk
    have htok : splitTokens k "." = [k] := splitTokens_single k hk
    cases halo : alookup k tb with
    | none => simp only [tomlRead, Option.getD_none, htok, halo]
    | some v0 => simp only [tomlRead, Option.getD_none, htok, halo, List.foldl_nil]

/-- C7 (witness): the characterization applied to `[12]`, and the TOML
first-token rule applied to a plain key. -/
theorem c7_index_classification_witness :
    vecIdx "[12]" = some 12
  ∧ tomlRead "k" [("k", .num 3)] none = some (alookup "k" [("k", .num 3)]) :=
  ⟨(c7_index_classification_amended.1 "[12]" 12).mpr
      ⟨['1', '2'], by decide, by decide, by decide, by decide, by decide⟩,
    c7_index_classification_amended.2.2 [("k", .num 3)] "k" (by decide)⟩

/-- C9 (confirmed): a custom separator fully replaces the default for
tokenization: with separator `@`, `foo@bar` resolves to the nested value,
while `foo.bar` becomes the single literal key `"foo.bar"` and is absent,
for both the JSON and TOML readers. -/
theorem c9_custom_separator :
    jsonRead "foo@bar" (.obj [("foo", .obj [("bar", .num 1)])]) (some "@")
        = some (some (.num 1))
  ∧ jsonRead "foo.bar" (.obj [("foo", .obj [("bar", .num 1)])]) (some "@")
        = some none
  ∧ tomlRead "foo@bar" [("foo", .obj [("bar", .num 1)])] (some "@")
        = some (some (.num 1))
  ∧ tomlRead "foo.bar" [("foo", .obj [("bar", .num 1)])] (some "@")
        = some none :=
  ⟨rfl, rfl, rfl, rfl⟩

/-- C10 (confirmed): when the document root is a Sequence, the unrooted
JSON enumerator `json::get_paths` returns the empty list — the root entry
carries no path, and the loop only pushes Sequence children when a path is
already pending, so neither the root nor any descendant is emitted. -/
theorem c10_root_array_empty : ∀ (a : List Value), jsonGetPaths (.arr a) = [] := by
  intro a
  rw [jsonGetPaths, pathsLoop]
  simp [childEntries, pathsLoop]

end Nestac

namespace Nestac

-- sanity examples (mirroring the library doctests)
example : jsonRead "foo.bar" (.obj [("foo", .obj [("bar", .str "bingo!")])]) none
    = some (some (.str "bingo!")) := rfl
example : jsonRead "foo@bar" (.obj [("foo", .obj [("bar", .str "bingo!")])]) (some "@")
    = some (some (.str "bingo!")) := rfl
example : jsonRead "foo.[0].bar" (.obj [("foo", .arr [.obj [("bar", .str "bingo!")]])]) none
    = some (some (.str "bingo!")) := rfl
example : tomlRead "foo.bar.[1]" [("foo", .obj [("bar", .arr [.str "hello", .str "world"])])] none
    = some (some (.str "world")) := rfl
example : jsonUpdate (.obj [("foo", .obj [("bar", .str "bingo!")])]) "foo.bar" none (.str "updated!")
    = some (some (.str "bingo!"), .obj [("foo", .obj [("bar", .str "updated!")])]) := rfl
example : tomlUpdate [("foo", .obj [("bar", .arr [.str "bingo!"])])] "foo.bar.[0]" none (.str "updated!")
    = some (some (.str "bingo!"), [("foo", .obj [("bar", .arr [.str "updated!"])])]) := rfl
example : vecIdx "[12]" = some 12 := by decide
example : vecIdx "12" = none := by decide
example : vecIdx "[-1]" = none := by decide
example : vecIdx "[]" = none := by decide

end Nestac

namespace Nestac

example : jsonGetPaths (.obj [("foo", .obj [("bar", .str "b")])]) = ["foo", "foo.bar"] := by
  simp [jsonGetPaths, pathsLoop, childEntries, joinKey]

example : jsonGetPaths (.obj [("foo", .arr [.str "a"])]) = ["foo", "foo.0"] := by
  simp [jsonGetPaths, pathsLoop, childEntries, joinKey]
  rfl

example (a : List Value) : jsonGetPaths (.arr a) = [] := by
  rw [jsonGetPaths, pathsLoop]
  simp [childEntries, pathsLoop]

example : tomlGetPaths [("foo", .arr [.str "a"])] = ["foo", "foo.0"] := by
  simp [tomlGetPaths, tomlPathsLoop, tomlChildEntries]
  rfl

example : jsonGetPathsRooted (.obj [("foo", .num 1)]) none = ["$", "$.foo"] := rfl

end Nestac
